import Mathlib

/-!
Verification development for the custom_shell command interpreter.

The definitions below are a shallow embedding of the C sources:
`src/parser.c` (line parsing and history expansion), `src/shell.c`
(history store, persistence, session loop), `src/executor.c`
(dispatch, redirection, external execution) and `src/builtins.c`
(multi-target file utilities).  C strings are modelled as `List Char`;
writing the terminator byte `'\0'` into a buffer is modelled by
`List.set` with `nulChar`, and reading a C string out of a buffer is
`takeWhile (· != nulChar)`.  File-descriptor effects, `fork`/`waitpid`
outcomes and filesystem calls are modelled by explicit state and
oracle parameters.
-/

namespace CustomShell

/-- The NUL byte `'\0'`, the C string terminator. -/
def nulChar : Char := Char.ofNat 0

/-- C `isspace` in the default locale: space and `\t \n \v \f \r`. -/
def cIsSpace (c : Char) : Bool := decide (c.toNat = 32 ∨ (9 ≤ c.toNat ∧ c.toNat ≤ 13))

/-- C `isdigit`: ASCII `'0'..'9'`. -/
def cIsDigit (c : Char) : Bool := decide (48 ≤ c.toNat ∧ c.toNat ≤ 57)

/-- C `isalpha`: ASCII letters. -/
def cIsAlpha (c : Char) : Bool :=
  decide ((65 ≤ c.toNat ∧ c.toNat ≤ 90) ∨ (97 ≤ c.toNat ∧ c.toNat ≤ 122))

/-- C `isalnum`. -/
def cIsAlnum (c : Char) : Bool := cIsAlpha c || cIsDigit c

/-- One step of splitting on delimiters: a delimiter opens a new (empty)
group, any other character is prepended to the current group. -/
def splitF (isDelim : Char → Bool) (c : Char) (acc : List (List Char)) :
    List (List Char) :=
  if isDelim c then [] :: acc
  else
    match acc with
    | [] => [[c]]
    | t :: ts => (c :: t) :: ts

/-- Split a character list into the groups between delimiter occurrences,
keeping empty groups (the shape `strsep` would give). -/
def splitKeepEmpty (isDelim : Char → Bool) (cs : List Char) : List (List Char) :=
  cs.foldr (splitF isDelim) []

/-- `split_string` from `src/utils.c`: repeated `strtok`, which skips over
delimiter runs, so the tokens are exactly the non-empty groups. -/
def strtokSplit (isDelim : Char → Bool) (cs : List Char) : List (List Char) :=
  (splitKeepEmpty isDelim cs).filter (fun t => ! t.isEmpty)

/-- `trim_string` from `src/utils.c`: strip leading and trailing
whitespace. -/
def trim_string (cs : List Char) : List Char :=
  let a := cs.dropWhile cIsSpace
  (a.reverse.dropWhile cIsSpace).reverse

/-- Index of the first occurrence of a character, modelling `strstr` with a
one-character needle. -/
def strstrIdx (target : Char) : List Char → Option Nat
  | [] => none
  | c :: rest => if c = target then some 0 else (strstrIdx target rest).map (· + 1)

/-- `command_t` from `include/shell.h`.  `name = none` models a NULL
`name` pointer (the `memset` zero-fill that `parse_command` starts from). -/
structure command_t where
  name : Option (List Char)
  args : List (List Char)
  argc : Nat
  input_file : Option (List Char)
  output_file : Option (List Char)
  background : Bool
deriving DecidableEq

/-- `parse_arguments` from `src/parser.c`: split on space/tab via
`split_string` (which already drops empty tokens) and keep at most
`MAX_ARGS = 64` arguments. -/
def parse_arguments (s : List Char) : List (List Char) :=
  (strtokSplit (fun c => c == ' ' || c == '\t') s).take 64

/-- `parse_command` from `src/parser.c`.  The C code first computes
`strstr` positions of `<`, `>` and `&` on the whole trimmed segment, then
writes `'\0'` at the `&` position, then at the `<` position (reading the
input file name after it), then at the `>` position (reading the output
file name), and finally tokenizes the text before the first terminator.
Returns `none` exactly on the `-1` path (empty after trimming). -/
def parse_command (cmd_str : List Char) : Option command_t :=
  let t := trim_string cmd_str
  if t = [] then none
  else
    let bgIdx := strstrIdx '&' t
    let inIdx := strstrIdx '<' t
    let outIdx := strstrIdx '>' t
    let t1 := match bgIdx with
      | some b => t.set b nulChar
      | none => t
    let inFile := match inIdx with
      | some p =>
          some ((((t1.set p nulChar).drop (p + 1)).dropWhile cIsSpace).takeWhile
            (fun c => c != nulChar))
      | none => none
    let t2 := match inIdx with
      | some p => t1.set p nulChar
      | none => t1
    let outFile := match outIdx with
      | some q =>
          some ((((t2.set q nulChar).drop (q + 1)).dropWhile cIsSpace).takeWhile
            (fun c => c != nulChar))
      | none => none
    let t3 := match outIdx with
      | some q => t2.set q nulChar
      | none => t2
    let args := parse_arguments (t3.takeWhile (fun c => c != nulChar))
    some { name := args.head?, args := args, argc := args.length,
           input_file := inFile, output_file := outFile,
           background := bgIdx.isSome }

/-- `parse_input` from `src/parser.c`: split the line on `;` (strtok, so
empty segments vanish), cap at `max_commands = MAX_ARGS = 64` segments, and
keep the commands whose `parse_command` succeeded. -/
def parse_input (input : List Char) : List command_t :=
  ((strtokSplit (fun c => c == ';') input).take 64).filterMap parse_command

/-- `MAX_HISTORY_SIZE` from `include/shell.h`. -/
def MAX_HISTORY_SIZE : Nat := 100

/-- `MAX_HISTORY_LENGTH` from `include/shell.h`. -/
def MAX_HISTORY_LENGTH : Nat := 1024

/-- `MAX_HISTORY_FILE_SIZE` from `include/shell.h` (1 MiB). -/
def MAX_HISTORY_FILE_SIZE : Nat := 1024 * 1024

/-- `history_entry_t` from `include/shell.h`. -/
structure history_entry_t where
  command : List Char
  timestamp : Int
  exit_code : Int
deriving DecidableEq

/-- `add_to_history` from `src/shell.c`.  The history is modelled as the
list of live entries, oldest first (`history[0] .. history[count-1]`).
When the store is full the C code shifts every slot one step toward 0 and
sets `history_count` to 99, then writes the new entry at the end;
`strncpy` bounds the stored text at `MAX_HISTORY_LENGTH - 1` characters.
Empty text returns without any change.  `time(NULL)` is passed in as
`now`. -/
def add_to_history (hist : List history_entry_t) (command : List Char)
    (exit_code : Int) (now : Int) : List history_entry_t :=
  if command = [] then hist
  else
    let h1 := if MAX_HISTORY_SIZE ≤ hist.length then
        (hist.drop 1).take (MAX_HISTORY_SIZE - 1)
      else hist
    h1 ++ [⟨command.take (MAX_HISTORY_LENGTH - 1), now, exit_code⟩]

/-- `get_history_by_number` from `src/shell.c`: 1-based lookup, `NULL`
outside `1..history_count`. -/
def get_history_by_number (hist : List history_entry_t) (number : Nat) :
    Option (List Char) :=
  if number < 1 then none else (hist[number - 1]?).map (·.command)

/-- `get_last_command_by_prefix` from `src/shell.c`: scan from the newest
entry down; `strncmp(entry, pfx, strlen(pfx)) == 0` is exactly "`pfx` is a
prefix of the entry text" for NUL-free strings. -/
def get_last_command_by_prefix (hist : List history_entry_t) (pfx : List Char) :
    Option (List Char) :=
  (hist.reverse.find? (fun e => pfx.isPrefixOf e.command)).map (·.command)

/-- A sequence of `add_to_history` calls: each element carries
`(command, exit_code, now)`. -/
def appendAll (ops : List (List Char × Int × Int)) (hist : List history_entry_t) :
    List history_entry_t :=
  ops.foldl (fun h op => add_to_history h op.1 op.2.1 op.2.2) hist

/-- Loop body of `process_history_expansion` from `src/parser.c`.
`i` is the input cursor, `acc` the output buffer written so far
(`output_pos = acc.length`).  A resolved reference is copied only if it
fits, but the cursor always jumps past the reference; an unresolved
reference returns `none` (the C `-1`).  A `!`-prefix longer than 255
characters falls through to plain character copying, as in the C. -/
def pheGo (hist : List history_entry_t) (input : List Char) (maxSz : Nat) :
    Nat → Nat → List Char → Option (List Char)
  | 0, _, acc => some acc
  | fuel + 1, i, acc =>
    if i < input.length ∧ acc.length < maxSz - 1 then
      let c := input.getD i nulChar
      if c = '!' ∧ i + 1 < input.length then
        if cIsDigit (input.getD (i + 1) nulChar) then
          let ds := (input.drop (i + 1)).takeWhile cIsDigit
          let number := ds.foldl (fun a d => a * 10 + (d.toNat - 48)) 0
          match get_history_by_number hist number with
          | some cmd =>
              pheGo hist input maxSz fuel (i + 1 + ds.length)
                (if acc.length + cmd.length < maxSz - 1 then acc ++ cmd else acc)
          | none => none
        else if cIsAlpha (input.getD (i + 1) nulChar) then
          let ps := (input.drop (i + 1)).takeWhile
            (fun x => cIsAlnum x || x == '_' || x == '-')
          if ps.length < 255 then
            match get_last_command_by_prefix hist ps with
            | some cmd =>
                pheGo hist input maxSz fuel (i + 1 + ps.length)
                  (if acc.length + cmd.length < maxSz - 1 then acc ++ cmd else acc)
            | none => none
          else pheGo hist input maxSz fuel (i + 1) (acc ++ [c])
        else pheGo hist input maxSz fuel (i + 1) (acc ++ [c])
      else pheGo hist input maxSz fuel (i + 1) (acc ++ [c])
    else some acc

/-- `process_history_expansion` from `src/parser.c`, with the history store
attached (`g_shell_state` non-NULL).  `none` is the `-1` error return.
The cursor `i` advances by at least one every iteration and the loop stops
once `i` reaches the input length, so `input.length + 1` rounds of `pheGo`
always reach the loop's own exit: the fuel argument never runs out. -/
def process_history_expansion (hist : List history_entry_t) (input : List Char)
    (maxSz : Nat) : Option (List Char) :=
  if maxSz = 0 then none else pheGo hist input maxSz (input.length + 1) 0 []

/-- The per-line front half of `shell_run` from `src/shell.c` (lines
165–191): run history expansion with the 1024-byte line buffer; when it
returns `0` the expanded text replaces the line, when it returns `-1` the
line is left as typed; the (possibly replaced) line is then parsed, and
the commands with a non-NULL `name` are the ones the loop executes. -/
def shell_handle_line (hist : List history_entry_t) (input : List Char) :
    List command_t :=
  let effective := match process_history_expansion hist input 1024 with
    | some e => e
    | none => input
  (parse_input effective).filter (fun c => c.name.isSome)

/-- The command-execution loop of `shell_run` from `src/shell.c` (lines
182–191), viewed through its effect on the history: every command with a
non-NULL `name` is executed (`exitOf` supplies `execute_command`'s result)
and the whole input line is appended to the history with that exit code.
`shouldExit` is `state->should_exit`, checked after each append; nothing
inside the loop sets it (`builtin_exit` sets the separate global
`g_should_exit`), so it keeps its value for the whole line. -/
def runCommands (hist : List history_entry_t) (line : List Char)
    (exitOf : command_t → Int) (now : Int) (shouldExit : Bool) :
    List command_t → List history_entry_t
  | [] => hist
  | c :: rest =>
    if c.name.isSome then
      let h1 := add_to_history hist line (exitOf c) now
      if shouldExit then h1 else runCommands h1 line exitOf now shouldExit rest
    else runCommands hist line exitOf now shouldExit rest

/-- What a standard descriptor can point at: the shell's original standard
input, its original standard output, or an opened file. -/
inductive StreamTgt where
  | origIn : StreamTgt
  | origOut : StreamTgt
  | file : List Char → StreamTgt
deriving DecidableEq

/-- The descriptor state touched by `src/executor.c`: where `STDIN_FILENO`
and `STDOUT_FILENO` currently point, and the static `original_stdin` /
`original_stdout` save slots (`none` models the `-1` sentinel). -/
structure FDState where
  stdinT : StreamTgt
  stdoutT : StreamTgt
  savedIn : Option StreamTgt
  savedOut : Option StreamTgt
deriving DecidableEq

/-- The descriptor state at shell start: standard streams in place, no
saved descriptors. -/
def initFDState : FDState := ⟨.origIn, .origOut, none, none⟩

/-- Output half of `setup_redirections` from `src/executor.c`: open the
output file (write/create/truncate, oracle `writable` tells whether
`open` succeeds) and `dup2` it onto standard output; `-1` on failure. -/
def setupOutput (cmd : command_t) (writable : List Char → Bool) (s : FDState) :
    Int × FDState :=
  match cmd.output_file with
  | none => (0, s)
  | some p => if writable p then (0, { s with stdoutT := .file p }) else (-1, s)

/-- `setup_redirections` from `src/executor.c`: save the original
descriptors once (idempotent on already-saved slots), then install the
input redirection, then the output redirection, returning `-1` as soon as
an `open` fails — with whatever was already installed left in place. -/
def setup_redirections (cmd : command_t) (readable writable : List Char → Bool)
    (s : FDState) : Int × FDState :=
  let s1 : FDState := { s with
    savedIn := match s.savedIn with
      | none => some s.stdinT
      | some t => some t,
    savedOut := match s.savedOut with
      | none => some s.stdoutT
      | some t => some t }
  match cmd.input_file with
  | none => setupOutput cmd writable s1
  | some p =>
    if readable p then setupOutput cmd writable { s1 with stdinT := .file p }
    else (-1, s1)

/-- `restore_stdio` from `src/executor.c`: `dup2` each saved descriptor
back onto its standard stream and clear the save slot. -/
def restore_stdio (s : FDState) : FDState :=
  let s1 : FDState := match s.savedIn with
    | some t => { s with stdinT := t, savedIn := none }
    | none => s
  match s1.savedOut with
  | some t => { s1 with stdoutT := t, savedOut := none }
  | none => s1

/-- `execute_command` from `src/executor.c`, viewed through its effect on
the descriptor state: if `setup_redirections` fails the function returns
`-1` immediately; only on the success path does it run the command body
(`bodyExit` is the builtin's or `execute_external`'s result, neither of
which moves the parent's descriptors) and then call `restore_stdio`. -/
def execute_command_fd (cmd : command_t) (readable writable : List Char → Bool)
    (bodyExit : Int) (s : FDState) : Int × FDState :=
  if cmd.name = none then (-1, s)
  else
    let r := setup_redirections cmd readable writable s
    if r.1 ≠ 0 then (-1, r.2)
    else (bodyExit, restore_stdio r.2)

/-- glibc `WIFEXITED`: low seven status bits all zero. -/
def wifexited (status : Nat) : Bool := status % 128 == 0

/-- glibc `WEXITSTATUS`: bits 8..15. -/
def wexitstatus (status : Nat) : Nat := (status / 256) % 256

/-- glibc `WIFSIGNALED`: `((status & 0x7f) + 1) >> 1 > 0`. -/
def wifsignaled (status : Nat) : Bool := decide (0 < (status % 128 + 1) / 2)

/-- glibc `WTERMSIG`: low seven status bits. -/
def wtermsig (status : Nat) : Nat := status % 128

/-- Observable outcome of `execute_external`'s parent path: the returned
exit code, whether the parent blocked in `waitpid`, the `[pid] name`
job-started notice if printed, and the `(pid, signal)` diagnostic if the
child died by a signal. -/
structure ExecOutcome where
  exitCode : Int
  waited : Bool
  jobNotice : Option (Nat × List Char)
  signalDiag : Option (Nat × Nat)
deriving DecidableEq

/-- `execute_external` from `src/executor.c`, parent side.  `forkOk` tells
whether `fork` succeeded, `pid` is the child pid and `status` the raw
`waitpid` status word.  Background commands print the notice and return 0
without waiting; foreground commands wait and translate the status with
the `WIF*` macros, falling through to 0 when neither macro matches. -/
def execute_external (cmd : command_t) (forkOk : Bool) (pid : Nat)
    (status : Nat) : ExecOutcome :=
  match cmd.name with
  | none => ⟨-1, false, none, none⟩
  | some nm =>
    if !forkOk then ⟨-1, false, none, none⟩
    else if cmd.background then ⟨0, false, some (pid, nm), none⟩
    else if wifexited status then ⟨Int.ofNat (wexitstatus status), true, none, none⟩
    else if wifsignaled status then ⟨-1, true, none, some (pid, wtermsig status)⟩
    else ⟨0, true, none, none⟩

/-- `builtin_touch` from `src/builtins.c`: `fopen(_, "a")` each target
(the oracle `fopenOk` tells which succeed); 0 when all targets succeed,
1 on partial success, -1 when none does or no target was given. -/
def builtin_touch (args : List (List Char)) (fopenOk : List Char → Bool) : Int :=
  if args.length < 2 then -1
  else
    let successCount := ((args.drop 1).filter fopenOk).length
    if successCount = args.length - 1 then 0
    else if 0 < successCount then 1
    else -1

/-- `builtin_rm` from `src/builtins.c`: `unlink` each target; same
0 / 1 / -1 result shape as `builtin_touch`. -/
def builtin_rm (args : List (List Char)) (unlinkOk : List Char → Bool) : Int :=
  if args.length < 2 then -1
  else
    let successCount := ((args.drop 1).filter unlinkOk).length
    if successCount = args.length - 1 then 0
    else if 0 < successCount then 1
    else -1

/-- `builtin_mkdir` from `src/builtins.c`: `mkdir(_, 0755)` each target;
same 0 / 1 / -1 result shape. -/
def builtin_mkdir (args : List (List Char)) (mkdirOk : List Char → Bool) : Int :=
  if args.length < 2 then -1
  else
    let successCount := ((args.drop 1).filter mkdirOk).length
    if successCount = args.length - 1 then 0
    else if 0 < successCount then 1
    else -1

/-- `builtin_rmdir` from `src/builtins.c`: `rmdir` each target; same
0 / 1 / -1 result shape. -/
def builtin_rmdir (args : List (List Char)) (rmdirOk : List Char → Bool) : Int :=
  if args.length < 2 then -1
  else
    let successCount := ((args.drop 1).filter rmdirOk).length
    if successCount = args.length - 1 then 0
    else if 0 < successCount then 1
    else -1

/-- ASCII digit character for a digit value. -/
def digitCharC (d : Nat) : Char := Char.ofNat (48 + d)

/-- Fuelled little-endian base-10 digit list; any fuel at least `n`
suffices, since the argument shrinks by a factor of ten each step. -/
def natDigitsF : Nat → Nat → List Nat
  | 0, _ => []
  | _ + 1, 0 => []
  | fuel + 1, n + 1 => ((n + 1) % 10) :: natDigitsF fuel ((n + 1) / 10)

/-- Little-endian base-10 digits of `n` (empty for 0). -/
def natDigits (n : Nat) : List Nat := natDigitsF n n

/-- Decimal rendering of a natural number, most significant digit first,
as `printf` produces it. -/
def natReprC (n : Nat) : List Char :=
  if n = 0 then [digitCharC 0] else ((natDigits n).map digitCharC).reverse

/-- `printf("%ld", i)` / `printf("%d", i)`: minus sign, then the decimal
digits of the absolute value. -/
def intReprC (i : Int) : List Char :=
  if i < 0 then '-' :: natReprC i.natAbs else natReprC i.natAbs

/-- Accumulate a run of decimal digit characters into a number. -/
def parseDigitsC (cs : List Char) : Nat :=
  cs.foldl (fun a c => a * 10 + (c.toNat - 48)) 0

/-- C `atol` / `atoi`: skip leading whitespace, read an optional sign and
then the longest digit run; anything after is ignored, no digits means 0. -/
def parseCInt (cs : List Char) : Int :=
  match cs.dropWhile cIsSpace with
  | [] => 0
  | c :: rest =>
    if c = '-' then - Int.ofNat (parseDigitsC (rest.takeWhile cIsDigit))
    else if c = '+' then Int.ofNat (parseDigitsC (rest.takeWhile cIsDigit))
    else Int.ofNat (parseDigitsC ((c :: rest).takeWhile cIsDigit))

/-- One record of the history file, as `save_history_to_file` prints it:
`timestamp|exit_code|command` (no trailing newline here). -/
def formatEntry (e : history_entry_t) : List Char :=
  intReprC e.timestamp ++ '|' :: intReprC e.exit_code ++ '|' :: e.command

/-- `save_history_to_file` from `src/shell.c`, as the byte content written
to the history file: the most recent `MAX_HISTORY_SIZE` entries, oldest
first, one `timestamp|exit_code|command\n` line each.  (When
`history_count` is 0 the C function returns without touching the file.) -/
def save_history (hist : List history_entry_t) : List Char :=
  let start := if MAX_HISTORY_SIZE < hist.length then hist.length - MAX_HISTORY_SIZE
    else 0
  ((hist.drop start).map (fun e => formatEntry e ++ ['\n'])).flatten

/-- One `fgets` call on a buffer of size `n + 1`: consume up to `n`
characters, stopping after a newline; returns the chunk read and the rest
of the stream. -/
def fgetsTake : Nat → List Char → List Char × List Char
  | 0, cs => ([], cs)
  | _ + 1, [] => ([], [])
  | n + 1, c :: cs =>
    if c = '\n' then ([c], cs)
    else
      let r := fgetsTake n cs
      (c :: r.1, r.2)

theorem fgetsTake_snd_length_le : ∀ (n : Nat) (cs : List Char),
    (fgetsTake n cs).2.length ≤ cs.length
  | 0, _ => le_refl _
  | _ + 1, [] => Nat.le_refl _
  | n + 1, c :: cs => by
    rw [fgetsTake]
    split
    · exact Nat.le_succ _
    · exact le_trans (fgetsTake_snd_length_le n cs) (Nat.le_succ _)

theorem fgetsTake_snd_length_lt (n : Nat) (c : Char) (cs : List Char) :
    (fgetsTake (n + 1) (c :: cs)).2.length < (c :: cs).length := by
  rw [fgetsTake]
  split
  · simp
  · exact Nat.lt_succ_of_le (fgetsTake_snd_length_le n cs)

/-- Fuelled worker for `fgetsChunks`; each chunk consumes at least one
character, so any fuel at least the stream length reaches end of file. -/
def fgetsChunksF : Nat → List Char → List (List Char)
  | _, [] => []
  | 0, _ :: _ => []
  | fuel + 1, c :: cs =>
    let r := fgetsTake 1023 (c :: cs)
    r.1 :: fgetsChunksF fuel r.2

/-- The sequence of chunks that the `fgets(line, MAX_HISTORY_LENGTH, file)`
loop of `load_history_from_file` reads: each call consumes at most
`MAX_HISTORY_LENGTH - 1 = 1023` characters, stopping after a newline. -/
def fgetsChunks (cs : List Char) : List (List Char) := fgetsChunksF cs.length cs

/-- The parse loop of `load_history_from_file` from `src/shell.c`: for each
line read, truncate at the newline (`strcspn`), skip empty lines, split on
`|` with `strtok` and require three tokens — timestamp (`atol`), exit code
(`atoi`) and command text (`strncpy`-bounded); stop once
`MAX_HISTORY_SIZE` entries are loaded. -/
def loadLines : Nat → List (List Char) → List history_entry_t
  | _, [] => []
  | cnt, chunk :: rest =>
    if cnt < MAX_HISTORY_SIZE then
      let line := chunk.takeWhile (fun c => c != '\n')
      if line = [] then loadLines cnt rest
      else
        match strtokSplit (fun c => c == '|') line with
        | t1 :: t2 :: t3 :: _ =>
          ⟨t3.take (MAX_HISTORY_LENGTH - 1), parseCInt t1, parseCInt t2⟩ ::
            loadLines (cnt + 1) rest
        | _ => loadLines cnt rest
    else []

/-- `load_history_from_file` from `src/shell.c`, on a file with the given
content: refuse files larger than `MAX_HISTORY_FILE_SIZE` (the `-1` path,
modelled as `none`, which leaves a fresh state empty), otherwise parse
line by line. -/
def load_history (file : List Char) : Option (List history_entry_t) :=
  if MAX_HISTORY_FILE_SIZE < file.length then none
  else some (loadLines 0 (fgetsChunks file))

/-! ## Theorems -/

/-- C1: the claim says an unresolved history reference aborts the entire
line, so that nothing from it is parsed or executed.  On an empty history
the reference `!99` is indeed an expansion error (`none`, the C `-1`), and
the error is reported — but `shell_run` only checks
`process_history_expansion(...) == 0` to decide whether to *replace* the
line: on error it falls through with the original text, and the loop then
parses and executes `!99` as a command.  This theorem evaluates the model
at that failing input: expansion fails, yet the line still produces one
executed command named `!99`. -/
theorem c1_expansion_error_line_still_runs :
    process_history_expansion [] ("!99".data) 1024 = none ∧
    shell_handle_line [] ("!99".data) =
      [⟨some ("!99".data), ["!99".data], 1, none, none, false⟩] := by
  constructor
  · decide
  · decide

/-- C2: the claim says the original standard descriptors are restored
before `execute_command` returns on every exit path, including a redirect
that fails partway through setup.  But `execute_command` returns `-1`
without calling `restore_stdio` when `setup_redirections` fails: with an
input file that opens and an output file that does not, the function
returns with standard input still redirected to the input file and both
save slots still occupied. -/
theorem c2_failed_redirect_leaves_stdin_redirected :
    execute_command_fd
        ⟨some ("cat".data), ["cat".data], 1, some ("in".data), some ("out".data), false⟩
        (fun p => p == "in".data) (fun _ => false) 0 initFDState =
      ((-1 : Int),
        ⟨StreamTgt.file ("in".data), StreamTgt.origOut,
         some StreamTgt.origIn, some StreamTgt.origOut⟩) := by
  decide

theorem wifexited_mul256 (code : Nat) : wifexited (256 * code) = true := by
  simp only [wifexited, beq_iff_eq]
  omega

/-- C7: `execute_external`'s parent path.  Background: print the
`[pid] name` notice and return 0 without waiting.  Foreground: wait for
the child; a normal-exit status word (`code << 8`) yields the child's exit
status, a signal-termination status word (the signal number in the low
seven bits) yields `-1` after the diagnostic naming pid and signal. -/
theorem c7_execute_external_parent_contract (cmd : command_t) (nm : List Char)
    (pid : Nat) (status : Nat) (hname : cmd.name = some nm) :
    (cmd.background = true →
       execute_external cmd true pid status = ⟨0, false, some (pid, nm), none⟩) ∧
    (cmd.background = false →
       (∀ code : Nat, code < 256 → status = 256 * code →
          execute_external cmd true pid status = ⟨Int.ofNat code, true, none, none⟩) ∧
       (∀ sig : Nat, 1 ≤ sig → sig ≤ 126 → status = sig →
          execute_external cmd true pid status = ⟨-1, true, none, some (pid, sig)⟩)) := by
  unfold execute_external
  rw [hname]
  constructor
  · intro hbg
    simp [hbg]
  · intro hbg
    constructor
    · intro code hlt hs
      subst hs
      have h1 : wifexited (256 * code) = true := wifexited_mul256 code
      have h2 : wexitstatus (256 * code) = code := by
        simp only [wexitstatus]
        omega
      simp [hbg, h1, h2]
    · intro sig h1 h2 hs
      have he : wifexited status = false := by
        simp only [wifexited, beq_eq_false_iff_ne, ne_eq]
        omega
      have hsg : wifsignaled status = true := by
        simp only [wifsignaled, decide_eq_true_eq]
        omega
      have ht : wtermsig status = sig := by
        simp only [wtermsig]
        omega
      simp [hbg, he, hsg, ht]

/-- C7 witness: a concrete background command returns 0 with the notice. -/
theorem c7_execute_external_witness :
    execute_external ⟨some ("ls".data), ["ls".data], 1, none, none, true⟩ true 42 0 =
      ⟨0, false, some (42, "ls".data), none⟩ :=
  (c7_execute_external_parent_contract
      ⟨some ("ls".data), ["ls".data], 1, none, none, true⟩
      ("ls".data) 42 0 rfl).1 rfl

/-- C8: the multi-target file built-ins (`touch`, `rm`, `mkdir`, `rmdir`)
return 0 when every target succeeds, 1 when some but not all targets
succeed, -1 when no target succeeds, and -1 when no target argument was
given. -/
theorem c8_multi_target_exit_codes (ok : List Char → Bool) (args : List (List Char)) :
    (args.length < 2 →
       builtin_touch args ok = -1 ∧ builtin_rm args ok = -1 ∧
       builtin_mkdir args ok = -1 ∧ builtin_rmdir args ok = -1) ∧
    (2 ≤ args.length →
       (((args.drop 1).filter ok).length = (args.drop 1).length →
          builtin_touch args ok = 0 ∧ builtin_rm args ok = 0 ∧
          builtin_mkdir args ok = 0 ∧ builtin_rmdir args ok = 0) ∧
       (0 < ((args.drop 1).filter ok).length →
          ((args.drop 1).filter ok).length < (args.drop 1).length →
          builtin_touch args ok = 1 ∧ builtin_rm args ok = 1 ∧
          builtin_mkdir args ok = 1 ∧ builtin_rmdir args ok = 1) ∧
       (((args.drop 1).filter ok).length = 0 →
          builtin_touch args ok = -1 ∧ builtin_rm args ok = -1 ∧
          builtin_mkdir args ok = -1 ∧ builtin_rmdir args ok = -1)) := by
  have hdrop : (args.drop 1).length = args.length - 1 := by simp
  constructor
  · intro h
    simp only [builtin_touch, builtin_rm, builtin_mkdir, builtin_rmdir, if_pos h]
    exact ⟨trivial, trivial, trivial, trivial⟩
  · intro h2
    have hlt2 : ¬ args.length < 2 := by omega
    refine ⟨?_, ?_, ?_⟩
    · intro hall
      have hk : ((args.drop 1).filter ok).length = args.length - 1 := by omega
      simp only [builtin_touch, builtin_rm, builtin_mkdir, builtin_rmdir,
        if_neg hlt2, if_pos hk]
      exact ⟨trivial, trivial, trivial, trivial⟩
    · intro hpos hlt
      have hk : ¬ ((args.drop 1).filter ok).length = args.length - 1 := by omega
      simp only [builtin_touch, builtin_rm, builtin_mkdir, builtin_rmdir,
        if_neg hlt2, if_neg hk, if_pos hpos]
      exact ⟨trivial, trivial, trivial, trivial⟩
    · intro hzero
      have hk : ¬ ((args.drop 1).filter ok).length = args.length - 1 := by omega
      have hnp : ¬ 0 < ((args.drop 1).filter ok).length := by omega
      simp only [builtin_touch, builtin_rm, builtin_mkdir, builtin_rmdir,
        if_neg hlt2, if_neg hk, if_neg hnp]
      exact ⟨trivial, trivial, trivial, trivial⟩

/-- C8 witness: with two targets, all succeeding gives 0, exactly one
succeeding gives 1, none succeeding gives -1, and a bare name gives -1. -/
theorem c8_multi_target_witness :
    builtin_touch ["touch".data, "a".data, "b".data] (fun _ => true) = 0 ∧
    builtin_rm ["rm".data, "a".data, "b".data] (fun p => p == "a".data) = 1 ∧
    builtin_mkdir ["mkdir".data, "a".data, "b".data] (fun _ => false) = -1 ∧
    builtin_rmdir ["rmdir".data] (fun _ => true) = -1 :=
  ⟨((c8_multi_target_exit_codes (fun _ => true)
        ["touch".data, "a".data, "b".data]).2 (by decide)).1 (by decide) |>.1,
   (((c8_multi_target_exit_codes (fun p => p == "a".data)
        ["rm".data, "a".data, "b".data]).2 (by decide)).2.1 (by decide) (by decide)).2.1,
   (((c8_multi_target_exit_codes (fun _ => false)
        ["mkdir".data, "a".data, "b".data]).2 (by decide)).2.2 (by decide)).2.2.1,
   ((c8_multi_target_exit_codes (fun _ => true) ["rmdir".data]).1 (by decide)).2.2.2⟩

/-- C10: with the empty string as the search text, the newest-to-oldest
scan of `get_last_command_by_prefix` matches at the first probe, so any
non-empty history yields its newest entry's text. -/
theorem c10_empty_prefix_newest (hist : List history_entry_t) (h : hist ≠ []) :
    get_last_command_by_prefix hist [] = some ((hist.getLast h).command) := by
  unfold get_last_command_by_prefix
  have hrev : hist.reverse ≠ [] := by simpa using h
  obtain ⟨c, t, hct⟩ := List.exists_cons_of_ne_nil hrev
  have hpfx : (([] : List Char).isPrefixOf c.command) = true :=
    List.isPrefixOf_nil_left
  have hlast : hist.getLast h = c := by
    have h1 : hist.getLast? = some c := by
      rw [← List.head?_reverse, hct, List.head?_cons]
    have h2 : hist.getLast? = some (hist.getLast h) := List.getLast?_eq_getLast hist h
    rw [h1] at h2
    exact (Option.some_injective _ h2.symm)
  rw [hct, List.find?_cons, hpfx, hlast]
  rfl

/-- C10 witness: a two-entry history with the empty search text returns
the newer entry. -/
theorem c10_empty_prefix_witness :
    get_last_command_by_prefix [⟨"ab".data, 0, 0⟩, ⟨"cd".data, 7, 1⟩] [] =
      some ("cd".data) :=
  c10_empty_prefix_newest [⟨"ab".data, 0, 0⟩, ⟨"cd".data, 7, 1⟩] (by decide)

theorem parse_command_eq_none_iff (seg : List Char) :
    parse_command seg = none ↔ trim_string seg = [] := by
  by_cases h : trim_string seg = []
  · simp [parse_command, h]
  · simp [parse_command, h]

theorem filterMap_parse_command_length (segs : List (List Char)) :
    (segs.filterMap parse_command).length =
      (segs.filter (fun s => ! (trim_string s).isEmpty)).length := by
  induction segs with
  | nil => rfl
  | cons s rest ih =>
    by_cases h : trim_string s = []
    · have hn : parse_command s = none := (parse_command_eq_none_iff s).2 h
      have hb : (trim_string s).isEmpty = true := by
        simp [List.isEmpty_iff, h]
      rw [List.filterMap_cons_none hn]
      simp only [List.filter_cons, hb, Bool.not_true, Bool.false_eq_true,
        if_false]
      exact ih
    · cases hp : parse_command s with
      | none => exact absurd ((parse_command_eq_none_iff s).1 hp) h
      | some c =>
        have hb : (trim_string s).isEmpty = false := by
          simp [List.isEmpty_iff, h]
        rw [List.filterMap_cons_some hp]
        simp only [List.filter_cons, hb, Bool.not_false, if_true,
          List.length_cons, ih]

/-- C5 (amended): a segment that is empty after trimming fails parsing for
that segment only — `parse_command` returns an error exactly for those
segments, and `parse_input` keeps one command per remaining segment.  A
non-empty segment that yields zero arguments does *not* fail: it still
contributes a Command (with `argc = 0` and a NULL name) to the returned
list, which the session loop later skips at execution time. -/
theorem c5_segment_parse_amended :
    (∀ seg : List Char, parse_command seg = none ↔ trim_string seg = []) ∧
    (∀ input : List Char,
       (parse_input input).length =
         (((strtokSplit (fun c => c == ';') input).take 64).filter
           (fun s => ! (trim_string s).isEmpty)).length) := by
  constructor
  · exact parse_command_eq_none_iff
  · intro input
    exact filterMap_parse_command_length _

/-- C5 counterexample: the claim says a segment yielding zero arguments
contributes no Command to the list returned by parse.  But the segment
`"< f"` (non-empty after trimming, zero arguments) parses successfully:
`parse_input` returns one Command, with no name, no arguments and the
input redirection recorded. -/
theorem c5_zero_arg_segment_counted :
    parse_input ("< f".data) = [⟨none, [], 0, some ("f".data), none, false⟩] := by
  decide

/-- C9: for a line executed by the session loop (`should_exit` is false at
loop entry and nothing in the loop sets it), every command with a non-NULL
name appends one history entry, and each entry records the whole input
line — not the command's own text.  The line always fits: the input buffer
holds at most 1023 characters and the history slot holds 1023. -/
theorem c9_history_records_whole_line :
    ∀ (cmds : List command_t) (hist : List history_entry_t) (line : List Char)
      (exitOf : command_t → Int) (now : Int),
      line ≠ [] → line.length ≤ 1023 →
      hist.length + (cmds.filter (fun c => c.name.isSome)).length ≤ 100 →
      runCommands hist line exitOf now false cmds =
        hist ++ (cmds.filter (fun c => c.name.isSome)).map
          (fun c => ⟨line, now, exitOf c⟩) := by
  intro cmds
  induction cmds with
  | nil =>
    intro hist line exitOf now _ _ _
    simp [runCommands]
  | cons c rest ih =>
    intro hist line exitOf now h1 h2 h3
    by_cases hn : c.name.isSome
    · simp only [List.filter_cons, hn, if_true] at h3 ⊢
      have hlen : hist.length < 100 := by
        simp only [List.length_cons] at h3
        omega
      have hadd : add_to_history hist line (exitOf c) now =
          hist ++ [⟨line, now, exitOf c⟩] := by
        simp only [add_to_history, if_neg h1]
        rw [if_neg (by simp only [MAX_HISTORY_SIZE]; omega)]
        have htk : line.take (MAX_HISTORY_LENGTH - 1) = line :=
          List.take_of_length_le (by simp only [MAX_HISTORY_LENGTH]; omega)
        rw [htk]
      have h3' : (hist ++ [(⟨line, now, exitOf c⟩ : history_entry_t)]).length +
          (rest.filter (fun c => c.name.isSome)).length ≤ 100 := by
        simp only [List.length_append, List.length_cons, List.length_nil] at h3 ⊢
        omega
      have hih := ih (hist ++ [⟨line, now, exitOf c⟩]) line exitOf now h1 h2 h3'
      simp only [runCommands, hn, if_true, Bool.false_eq_true, if_false, hadd]
      rw [hih]
      simp
    · simp only [List.filter_cons, hn, if_false] at h3 ⊢
      simp only [runCommands, hn, if_false]
      exact ih hist line exitOf now h1 h2 h3

/-- C9 witness: the two-command line `ls; pwd` appends two entries, both
holding the whole line. -/
theorem c9_history_witness :
    runCommands [] ("ls; pwd".data) (fun _ => 0) 7 false
        (parse_input ("ls; pwd".data)) =
      [⟨"ls; pwd".data, 7, 0⟩, ⟨"ls; pwd".data, 7, 0⟩] := by
  have h := c9_history_records_whole_line (parse_input ("ls; pwd".data)) []
    ("ls; pwd".data) (fun _ => 0) 7 (by decide) (by decide) (by decide)
  simpa using h

theorem add_to_history_length_le (hist : List history_entry_t) (cmd : List Char)
    (ec now : Int) (h : hist.length ≤ 100) :
    (add_to_history hist cmd ec now).length ≤ 100 := by
  simp only [add_to_history]
  split
  · exact h
  · split
    · simp only [List.length_append, List.length_take, List.length_drop,
        List.length_cons, List.length_nil, MAX_HISTORY_SIZE]
      omega
    · simp only [List.length_append, List.length_cons, List.length_nil]
      rename_i hfull
      simp only [MAX_HISTORY_SIZE, not_le] at hfull
      omega

/-- The entry that `add_to_history` stores for one append operation. -/
def entryOf (op : List Char × Int × Int) : history_entry_t :=
  ⟨op.1.take (MAX_HISTORY_LENGTH - 1), op.2.2, op.2.1⟩

theorem appendAll_formula :
    ∀ (ops : List (List Char × Int × Int)) (hist : List history_entry_t),
      (∀ op ∈ ops, op.1 ≠ []) → hist.length ≤ 100 →
      appendAll ops hist =
        (hist ++ ops.map entryOf).drop (hist.length + ops.length - 100) := by
  intro ops
  induction ops with
  | nil =>
    intro hist _ hle
    simp only [appendAll, List.foldl_nil, List.map_nil, List.append_nil,
      List.length_nil, Nat.add_zero]
    rw [(by omega : hist.length - 100 = 0), List.drop_zero]
  | cons op rest ih =>
    intro hist hne hle
    have hop : op.1 ≠ [] := hne op (by simp)
    have hrest : ∀ o ∈ rest, o.1 ≠ [] := fun o ho => hne o (by simp [ho])
    have hstep : appendAll (op :: rest) hist =
        appendAll rest (add_to_history hist op.1 op.2.1 op.2.2) := by
      simp [appendAll]
    by_cases h100 : MAX_HISTORY_SIZE ≤ hist.length
    · have hlen : hist.length = 100 := by
        simp only [MAX_HISTORY_SIZE] at h100
        omega
      have hdl : (hist.drop 1).length ≤ MAX_HISTORY_SIZE - 1 := by
        simp only [List.length_drop, MAX_HISTORY_SIZE]
        omega
      have hadd : add_to_history hist op.1 op.2.1 op.2.2 =
          hist.drop 1 ++ [entryOf op] := by
        simp only [add_to_history, if_neg hop, if_pos h100]
        rw [List.take_of_length_le hdl]
        rfl
      have hnil : hist ≠ [] := by
        intro hnil
        rw [hnil] at hlen
        simp at hlen
      obtain ⟨hd, tl, rfl⟩ := List.exists_cons_of_ne_nil hnil
      have htl : tl.length = 99 := by
        simp only [List.length_cons] at hlen
        omega
      have hlen2 : (List.drop 1 (hd :: tl) ++ [entryOf op]).length ≤ 100 := by
        simp only [List.length_append, List.length_drop, List.length_cons,
          List.length_nil, htl]
        omega
      rw [hstep, hadd, ih _ hrest hlen2]
      have hc1 : (List.drop 1 (hd :: tl) ++ [entryOf op]).length +
          rest.length - 100 = rest.length := by
        simp only [List.length_append, List.length_drop, List.length_cons,
          List.length_nil, htl]
        omega
      have hc2 : (hd :: tl).length + (op :: rest).length - 100 =
          rest.length + 1 := by
        simp only [List.length_cons, htl]
        omega
      rw [hc1, hc2]
      simp only [List.drop_one, List.tail_cons, List.map_cons,
        List.cons_append, List.drop_succ_cons, List.append_assoc,
        List.singleton_append, List.drop_zero, List.nil_append]
    · have hadd : add_to_history hist op.1 op.2.1 op.2.2 =
          hist ++ [entryOf op] := by
        simp only [add_to_history, if_neg hop, if_neg h100]
        rfl
      have h100' : hist.length < 100 := by
        simp only [MAX_HISTORY_SIZE, not_le] at h100
        exact h100
      have hlen2 : (hist ++ [entryOf op]).length ≤ 100 := by
        simp only [List.length_append, List.length_cons, List.length_nil]
        omega
      rw [hstep, hadd, ih _ hrest hlen2]
      have hc : (hist ++ [entryOf op]).length + rest.length - 100 =
          hist.length + (op :: rest).length - 100 := by
        simp only [List.length_append, List.length_cons, List.length_nil]
        omega
      rw [hc]
      simp only [List.map_cons, List.append_assoc, List.singleton_append]

/-- C3: the history store never grows past the capacity 100; appending
empty text leaves it unchanged; and once full, appending shifts everything
one slot toward index 0, so that after 101 appends starting from an empty
store, `get_history_by_number 1` returns the text of the *second* append
(bounded by the stored-text limit), not the first. -/
theorem c3_history_capacity_and_eviction :
    (∀ (ops : List (List Char × Int × Int)) (hist : List history_entry_t),
       hist.length ≤ 100 → (appendAll ops hist).length ≤ 100) ∧
    (∀ (hist : List history_entry_t) (ec now : Int),
       add_to_history hist [] ec now = hist) ∧
    (∀ (op1 op2 : List Char × Int × Int) (rest : List (List Char × Int × Int)),
       rest.length = 99 → op1.1 ≠ [] → op2.1 ≠ [] → (∀ op ∈ rest, op.1 ≠ []) →
       get_history_by_number (appendAll (op1 :: op2 :: rest) []) 1 =
         some (op2.1.take 1023)) := by
  refine ⟨?_, ?_, ?_⟩
  · intro ops
    induction ops with
    | nil =>
      intro hist h
      simpa [appendAll] using h
    | cons op rest ih =>
      intro hist h
      have hstep : appendAll (op :: rest) hist =
          appendAll rest (add_to_history hist op.1 op.2.1 op.2.2) := by
        simp [appendAll]
      rw [hstep]
      exact ih _ (add_to_history_length_le hist op.1 op.2.1 op.2.2 h)
  · intro hist ec now
    simp [add_to_history]
  · intro op1 op2 rest hlen h1 h2 hmem
    have hall : ∀ op ∈ op1 :: op2 :: rest, op.1 ≠ [] := by
      intro op hop
      simp only [List.mem_cons] at hop
      rcases hop with rfl | rfl | hop
      · exact h1
      · exact h2
      · exact hmem op hop
    rw [appendAll_formula (op1 :: op2 :: rest) [] hall (by simp)]
    have hc : List.length ([] : List history_entry_t) +
        (op1 :: op2 :: rest).length - 100 = 1 := by
      simp only [List.length_nil, List.length_cons, hlen]
    rw [hc]
    simp only [List.nil_append, List.map_cons, List.drop_succ_cons,
      List.drop_zero]
    simp [get_history_by_number, entryOf, MAX_HISTORY_LENGTH]

theorem takeWhile_eq_self_of_all (p : Char → Bool) (l : List Char)
    (h : ∀ c ∈ l, p c = true) : l.takeWhile p = l := by
  induction l with
  | nil => rfl
  | cons x xs ih =>
    rw [List.takeWhile_cons, if_pos (h x (by simp))]
    rw [ih (fun c hc => h c (by simp [hc]))]

theorem strstrIdx_eq_none_of_not_mem (c : Char) (l : List Char) (h : c ∉ l) :
    strstrIdx c l = none := by
  induction l with
  | nil => rfl
  | cons x xs ih =>
    simp only [List.mem_cons, not_or] at h
    simp only [strstrIdx]
    rw [if_neg (fun he => h.1 he.symm), ih h.2]
    rfl

/-- C4 counterexample: the claim says everything after the background
marker is discarded and cannot contribute an `input_file`.  But on the
segment `cmd & < f`, where `<` appears *after* `&`, the parser records
`background = true` *and* `input_file = "f"`: the `strstr` scans for `<`
and `>` run before the `&` truncation, over the whole segment. -/
theorem c4_marker_after_background_counted :
    parse_command ("cmd & < f".data) =
      some ⟨some ("cmd".data), ["cmd".data], 1, some ("f".data), none, true⟩ := by
  decide

/-- C4 (amended): the parser records `background = true` and terminates the
argument text at the `&` position, but the scans for the redirection
markers are performed on the whole segment before that truncation: for any
filename `f` (non-empty, no whitespace, no marker characters, no NUL), the
segment `cmd & < f` — with `<` textually after `&` — parses to a
background command named `cmd` whose `input_file` is `f`. -/
theorem c4_full_segment_marker_scan (f : List Char) (hne : f ≠ [])
    (hf : ∀ c ∈ f, cIsSpace c = false ∧ c ≠ '&' ∧ c ≠ '<' ∧ c ≠ '>' ∧ c ≠ nulChar) :
    parse_command ("cmd & < ".data ++ f) =
      some ⟨some ("cmd".data), ["cmd".data], 1, some f, none, true⟩ := by
  have hP : "cmd & < ".data = ['c', 'm', 'd', ' ', '&', ' ', '<', ' '] := rfl
  rw [hP]
  have hrevne : f.reverse ≠ [] := by simpa using hne
  obtain ⟨c1, g1, hrev⟩ := List.exists_cons_of_ne_nil hrevne
  have hc1 : cIsSpace c1 = false := by
    have hm : c1 ∈ f := by
      rw [← List.mem_reverse, hrev]
      exact List.mem_cons_self _ _
    exact (hf c1 hm).1
  have htrim : trim_string (['c', 'm', 'd', ' ', '&', ' ', '<', ' '] ++ f) =
      ['c', 'm', 'd', ' ', '&', ' ', '<', ' '] ++ f := by
    simp only [trim_string]
    have s1 : (['c', 'm', 'd', ' ', '&', ' ', '<', ' '] ++ f).dropWhile cIsSpace =
        ['c', 'm', 'd', ' ', '&', ' ', '<', ' '] ++ f := by
      have e : (['c', 'm', 'd', ' ', '&', ' ', '<', ' '] ++ f) =
          'c' :: (['m', 'd', ' ', '&', ' ', '<', ' '] ++ f) := rfl
      rw [e, List.dropWhile_cons, if_neg (by decide)]
    rw [s1, List.reverse_append]
    have s2 : (f.reverse ++ ['c', 'm', 'd', ' ', '&', ' ', '<', ' '].reverse).dropWhile
        cIsSpace = f.reverse ++ ['c', 'm', 'd', ' ', '&', ' ', '<', ' '].reverse := by
      rw [hrev, List.cons_append, List.dropWhile_cons, if_neg (by simp [hc1])]
    rw [s2, List.reverse_append, List.reverse_reverse, List.reverse_reverse]
  have hne2 : (['c', 'm', 'd', ' ', '&', ' ', '<', ' '] ++ f) ≠ [] := by simp
  have hbg : strstrIdx '&' (['c', 'm', 'd', ' ', '&', ' ', '<', ' '] ++ f) =
      some 4 := rfl
  have hin : strstrIdx '<' (['c', 'm', 'd', ' ', '&', ' ', '<', ' '] ++ f) =
      some 6 := rfl
  have hno_gt : strstrIdx '>' (['c', 'm', 'd', ' ', '&', ' ', '<', ' '] ++ f) =
      none := by
    apply strstrIdx_eq_none_of_not_mem
    simp only [List.mem_append, not_or]
    exact ⟨by decide, fun hm => ((hf '>' hm).2.2.2.1) rfl⟩
  have hdw : List.dropWhile cIsSpace (' ' :: f) = f := by
    rw [List.dropWhile_cons, if_pos (by decide)]
    obtain ⟨ch, ft, hfc⟩ := List.exists_cons_of_ne_nil hne
    have hch : cIsSpace ch = false :=
      (hf ch (by rw [hfc]; exact List.mem_cons_self _ _)).1
    rw [hfc, List.dropWhile_cons, if_neg (by simp [hch])]
  have htake : f.takeWhile (fun c => c != nulChar) = f := by
    apply takeWhile_eq_self_of_all
    intro c hc
    simp only [bne_iff_ne, ne_eq, decide_eq_true_eq]
    exact (hf c hc).2.2.2.2
  have hargs : parse_arguments (List.takeWhile (fun c => c != nulChar)
      ('c' :: 'm' :: 'd' :: ' ' :: nulChar :: ' ' :: nulChar :: ' ' :: f)) =
      [['c', 'm', 'd']] := rfl
  simp only [parse_command]
  rw [htrim, if_neg hne2, hbg, hin, hno_gt]
  simp [hargs, hdw, htake]

/-- C4 amended-theorem witness: the concrete filename `f`. -/
theorem c4_full_segment_marker_scan_witness :
    parse_command ("cmd & < f".data) =
      some ⟨some ("cmd".data), ["cmd".data], 1, some ("f".data), none, true⟩ :=
  c4_full_segment_marker_scan ("f".data) (by decide) (by decide)

theorem digitCharC_toNat (d : Nat) (h : d < 10) : (digitCharC d).toNat = 48 + d := by
  interval_cases d <;> rfl

theorem cIsDigit_digitCharC (d : Nat) (h : d < 10) : cIsDigit (digitCharC d) = true := by
  interval_cases d <;> decide

theorem natDigitsF_eq_digits : ∀ (fuel n : Nat), n ≤ fuel →
    natDigitsF fuel n = Nat.digits 10 n := by
  intro fuel
  induction fuel with
  | zero =>
    intro n h
    have h0 : n = 0 := by omega
    rw [h0]
    simp [natDigitsF]
  | succ k ih =>
    intro n h
    cases n with
    | zero => simp [natDigitsF]
    | succ m =>
      rw [natDigitsF, ih ((m + 1) / 10) (by omega),
        Nat.digits_def' (by norm_num : (1 : Nat) < 10) (Nat.succ_pos m)]

theorem natDigits_eq_digits (n : Nat) : natDigits n = Nat.digits 10 n :=
  natDigitsF_eq_digits n n (le_refl n)

theorem natReprC_ne_nil (n : Nat) : natReprC n ≠ [] := by
  unfold natReprC
  split
  · simp
  · rename_i h
    intro hnil
    rw [natDigits_eq_digits, List.reverse_eq_nil_iff] at hnil
    rw [List.map_eq_nil_iff] at hnil
    exact Nat.digits_ne_nil_iff_ne_zero.mpr h hnil

theorem natReprC_all_digits (n : Nat) : ∀ c ∈ natReprC n, cIsDigit c = true := by
  intro c hc
  unfold natReprC at hc
  split at hc
  · simp only [List.mem_singleton] at hc
    rw [hc]
    decide
  · rw [natDigits_eq_digits] at hc
    simp only [List.mem_reverse, List.mem_map] at hc
    obtain ⟨d, hd, rfl⟩ := hc
    exact cIsDigit_digitCharC d (Nat.digits_lt_base (by norm_num) hd)

theorem foldl_digits (L : List Nat) (hL : ∀ d ∈ L, d < 10) : ∀ a : Nat,
    List.foldl (fun a c => a * 10 + (c.toNat - 48)) a ((L.map digitCharC).reverse) =
      a * 10 ^ L.length + Nat.ofDigits 10 L := by
  induction L with
  | nil => intro a; simp
  | cons d L ih =>
    intro a
    have hd : d < 10 := hL d (by simp)
    have hL' : ∀ x ∈ L, x < 10 := fun x hx => hL x (by simp [hx])
    rw [List.map_cons, List.reverse_cons, List.foldl_append, ih hL' a,
      List.foldl_cons, List.foldl_nil, digitCharC_toNat d hd, Nat.ofDigits_cons]
    have he : 48 + d - 48 = d := by omega
    rw [he, List.length_cons, pow_succ]
    ring

theorem parseDigitsC_natReprC (n : Nat) : parseDigitsC (natReprC n) = n := by
  unfold natReprC
  split
  · rename_i h
    rw [h]
    rfl
  · unfold parseDigitsC
    rw [natDigits_eq_digits,
      foldl_digits _ (fun d hd => Nat.digits_lt_base (by norm_num) hd) 0]
    simp [Nat.ofDigits_digits]

theorem cIsDigit_facts (c : Char) (h : cIsDigit c = true) :
    cIsSpace c = false ∧ c ≠ '-' ∧ c ≠ '+' := by
  simp only [cIsDigit, decide_eq_true_eq] at h
  refine ⟨?_, ?_, ?_⟩
  · simp only [cIsSpace, decide_eq_false_iff_not]
    omega
  · intro he
    rw [he] at h
    exact absurd h (by decide)
  · intro he
    rw [he] at h
    exact absurd h (by decide)

theorem parseCInt_intReprC (i : Int) : parseCInt (intReprC i) = i := by
  by_cases hneg : i < 0
  · have hrepr : intReprC i = '-' :: natReprC i.natAbs := by
      unfold intReprC
      rw [if_pos hneg]
    rw [hrepr]
    unfold parseCInt
    rw [List.dropWhile_cons, if_neg (by decide)]
    simp only [if_pos rfl]
    rw [takeWhile_eq_self_of_all _ _ (natReprC_all_digits _), parseDigitsC_natReprC]
    simp only [Int.ofNat_eq_coe]
    rw [Int.ofNat_natAbs_of_nonpos (le_of_lt hneg)]
    simp
  · obtain ⟨c, cs, hr⟩ := List.exists_cons_of_ne_nil (natReprC_ne_nil i.natAbs)
    have hc : cIsDigit c = true := by
      apply natReprC_all_digits i.natAbs
      rw [hr]
      exact List.mem_cons_self _ _
    obtain ⟨hsp, hm, hp⟩ := cIsDigit_facts c hc
    have hrepr : intReprC i = c :: cs := by
      unfold intReprC
      rw [if_neg hneg, hr]
    rw [hrepr]
    unfold parseCInt
    rw [List.dropWhile_cons, if_neg (by simp [hsp])]
    simp only [if_neg hm, if_neg hp]
    rw [← hr, takeWhile_eq_self_of_all _ _ (natReprC_all_digits _),
      parseDigitsC_natReprC]
    simp only [Int.ofNat_eq_coe]
    exact Int.natAbs_of_nonneg (by omega)

theorem foldr_splitF_cons (isD : Char → Bool) (a : List Char)
    (ha : ∀ c ∈ a, isD c = false) (t : List Char) (ts : List (List Char)) :
    List.foldr (splitF isD) (t :: ts) a = (a ++ t) :: ts := by
  induction a with
  | nil => simp
  | cons x xs ih =>
    have hx : isD x = false := ha x (by simp)
    have hxs : ∀ c ∈ xs, isD c = false := fun c hc => ha c (by simp [hc])
    rw [List.foldr_cons, ih hxs]
    simp [splitF, hx]

theorem splitKeepEmpty_all_nondelim (isD : Char → Bool) (a : List Char)
    (ha : ∀ c ∈ a, isD c = false) (hne : a ≠ []) :
    splitKeepEmpty isD a = [a] := by
  induction a with
  | nil => exact absurd rfl hne
  | cons x xs ih =>
    have hx : isD x = false := ha x (by simp)
    have hxs : ∀ c ∈ xs, isD c = false := fun c hc => ha c (by simp [hc])
    cases xs with
    | nil => simp [splitKeepEmpty, splitF, hx]
    | cons y ys =>
      have hy := ih hxs (by simp)
      unfold splitKeepEmpty at hy ⊢
      rw [List.foldr_cons, hy]
      simp [splitF, hx]

theorem splitKeepEmpty_append_sep (isD : Char → Bool) (a : List Char) (d : Char)
    (b : List Char) (ha : ∀ c ∈ a, isD c = false) (hd : isD d = true) :
    splitKeepEmpty isD (a ++ d :: b) = a :: splitKeepEmpty isD b := by
  unfold splitKeepEmpty
  rw [List.foldr_append, List.foldr_cons]
  have hstep : splitF isD d (List.foldr (splitF isD) [] b) =
      [] :: List.foldr (splitF isD) [] b := by
    simp [splitF, hd]
  rw [hstep, foldr_splitF_cons isD a ha [] _, List.append_nil]

theorem strtokSplit_sep (isD : Char → Bool) (a : List Char) (d : Char)
    (b : List Char) (ha : ∀ c ∈ a, isD c = false) (hne : a ≠ [])
    (hd : isD d = true) :
    strtokSplit isD (a ++ d :: b) = a :: strtokSplit isD b := by
  unfold strtokSplit
  rw [splitKeepEmpty_append_sep isD a d b ha hd, List.filter_cons]
  have he : (! a.isEmpty) = true := by
    simp [List.isEmpty_iff, hne]
  rw [if_pos he]

theorem strtokSplit_single (isD : Char → Bool) (a : List Char)
    (ha : ∀ c ∈ a, isD c = false) (hne : a ≠ []) :
    strtokSplit isD a = [a] := by
  unfold strtokSplit
  rw [splitKeepEmpty_all_nondelim isD a ha hne, List.filter_cons]
  have he : (! a.isEmpty) = true := by
    simp [List.isEmpty_iff, hne]
  rw [if_pos he]
  rfl

theorem intReprC_chars (i : Int) : ∀ c ∈ intReprC i, cIsDigit c = true ∨ c = '-' := by
  intro c hc
  unfold intReprC at hc
  split at hc
  · simp only [List.mem_cons] at hc
    rcases hc with rfl | hc
    · right
      rfl
    · left
      exact natReprC_all_digits _ c hc
  · left
    exact natReprC_all_digits _ c hc

theorem intReprC_ne_nil (i : Int) : intReprC i ≠ [] := by
  unfold intReprC
  split
  · simp
  · exact natReprC_ne_nil _

theorem intReprC_no_bar (i : Int) : ∀ c ∈ intReprC i, (c == '|') = false := by
  intro c hc
  rcases intReprC_chars i c hc with h | rfl
  · simp only [cIsDigit, decide_eq_true_eq] at h
    simp only [beq_eq_false_iff_ne, ne_eq]
    intro he
    rw [he] at h
    exact absurd h (by decide)
  · decide

theorem intReprC_no_newline (i : Int) : '\n' ∉ intReprC i := by
  intro hc
  rcases intReprC_chars i '\n' hc with h | h
  · exact absurd h (by decide)
  · exact absurd h (by decide)

/-- `strtok` of a saved record recovers exactly the three fields, provided
the command text is non-empty and `|`-free. -/
theorem formatEntry_tokens (e : history_entry_t) (h1 : e.command ≠ [])
    (h2 : '|' ∉ e.command) :
    strtokSplit (fun c => c == '|') (formatEntry e) =
      [intReprC e.timestamp, intReprC e.exit_code, e.command] := by
  have hcmd : ∀ c ∈ e.command, ((fun c => c == '|') c) = false := by
    intro c hc
    simp only [beq_eq_false_iff_ne, ne_eq]
    intro he
    rw [he] at hc
    exact h2 hc
  unfold formatEntry
  rw [List.append_assoc, List.cons_append]
  rw [strtokSplit_sep (fun c => c == '|') (intReprC e.timestamp) '|'
    (intReprC e.exit_code ++ '|' :: e.command) (intReprC_no_bar _)
    (intReprC_ne_nil _) (by decide)]
  rw [strtokSplit_sep (fun c => c == '|') (intReprC e.exit_code) '|'
    e.command (intReprC_no_bar _) (intReprC_ne_nil _) (by decide)]
  rw [strtokSplit_single _ _ hcmd h1]

theorem formatEntry_ne_nil (e : history_entry_t) : formatEntry e ≠ [] := by
  unfold formatEntry
  simp [intReprC_ne_nil]

theorem formatEntry_no_newline (e : history_entry_t) (h : '\n' ∉ e.command) :
    '\n' ∉ formatEntry e := by
  intro hc
  unfold formatEntry at hc
  rcases List.mem_append.mp hc with hm | hm
  · rcases List.mem_append.mp hm with hm2 | hm2
    · exact intReprC_no_newline _ hm2
    · rcases List.mem_cons.mp hm2 with hm3 | hm3
      · exact absurd hm3 (by decide)
      · exact intReprC_no_newline _ hm3
  · rcases List.mem_cons.mp hm with hm3 | hm3
    · exact absurd hm3 (by decide)
    · exact h hm3

theorem command_length_le_formatEntry (e : history_entry_t) :
    e.command.length ≤ (formatEntry e).length := by
  unfold formatEntry
  simp only [List.length_append, List.length_cons]
  omega

theorem fgetsTake_line : ∀ (l : List Char) (n : Nat) (rest : List Char),
    '\n' ∉ l → l.length < n →
    fgetsTake n (l ++ '\n' :: rest) = (l ++ ['\n'], rest) := by
  intro l
  induction l with
  | nil =>
    intro n rest _ hlen
    cases n with
    | zero => omega
    | succ k =>
      simp [fgetsTake]
  | cons c l ih =>
    intro n rest hmem hlen
    cases n with
    | zero => simp at hlen
    | succ k =>
      have hc : ¬ c = '\n' := by
        intro he
        exact hmem (by rw [← he]; exact List.mem_cons_self _ _)
      have hmem' : '\n' ∉ l := fun hm => hmem (List.mem_cons_of_mem _ hm)
      simp only [List.cons_append, fgetsTake, if_neg hc, List.append_eq]
      rw [ih k rest hmem' (by simp at hlen; omega)]

theorem fgetsChunksF_fuel : ∀ (f1 : Nat) (f2 : Nat) (cs : List Char),
    cs.length ≤ f1 → cs.length ≤ f2 → fgetsChunksF f1 cs = fgetsChunksF f2 cs := by
  intro f1
  induction f1 with
  | zero =>
    intro f2 cs h1 _
    have : cs = [] := by
      cases cs with
      | nil => rfl
      | cons c cs' => simp at h1
    rw [this]
    cases f2 <;> rfl
  | succ k ih =>
    intro f2 cs h1 h2
    cases cs with
    | nil => cases f2 <;> rfl
    | cons c cs' =>
      cases f2 with
      | zero => simp at h2
      | succ m =>
        simp only [fgetsChunksF]
        have hsnd := fgetsTake_snd_length_lt 1022 c cs'
        norm_num at hsnd
        congr 1
        apply ih
        · simp only [List.length_cons] at h1
          omega
        · simp only [List.length_cons] at h2
          omega

theorem fgetsChunks_line (l rest : List Char) (hn : '\n' ∉ l)
    (hl : l.length ≤ 1022) :
    fgetsChunks (l ++ '\n' :: rest) = (l ++ ['\n']) :: fgetsChunks rest := by
  unfold fgetsChunks
  cases l with
  | nil =>
    simp only [List.nil_append, List.length_cons, fgetsChunksF]
    have he : fgetsTake 1023 ('\n' :: rest) = (['\n'], rest) := rfl
    rw [he]
  | cons c l' =>
    have htk : fgetsTake 1023 (c :: (l' ++ '\n' :: rest)) =
        ((c :: l') ++ ['\n'], rest) := by
      have := fgetsTake_line (c :: l') 1023 rest hn (by simp at hl ⊢; omega)
      simpa using this
    simp only [List.cons_append, List.length_cons, fgetsChunksF, List.append_eq]
    rw [htk]
    simp only [List.cons_append]
    congr 1
    apply fgetsChunksF_fuel
    · simp
      omega
    · exact le_refl _

theorem fgetsChunks_records : ∀ (hs : List history_entry_t),
    (∀ e ∈ hs, '\n' ∉ formatEntry e ∧ (formatEntry e).length ≤ 1022) →
    fgetsChunks ((hs.map (fun e => formatEntry e ++ ['\n'])).flatten) =
      hs.map (fun e => formatEntry e ++ ['\n']) := by
  intro hs
  induction hs with
  | nil =>
    intro _
    rfl
  | cons e hs ih =>
    intro hg
    obtain ⟨hnl, hlen⟩ := hg e (List.mem_cons_self _ _)
    have hg' : ∀ x ∈ hs, '\n' ∉ formatEntry x ∧ (formatEntry x).length ≤ 1022 :=
      fun x hx => hg x (List.mem_cons_of_mem _ hx)
    simp only [List.map_cons, List.flatten_cons]
    rw [List.append_assoc, List.singleton_append,
      fgetsChunks_line (formatEntry e) _ hnl hlen, ih hg']

theorem takeWhile_append_stop (p : Char → Bool) (a : List Char) (d : Char)
    (b : List Char) (ha : ∀ c ∈ a, p c = true) (hd : p d = false) :
    (a ++ d :: b).takeWhile p = a := by
  induction a with
  | nil =>
    simp [List.takeWhile_cons, hd]
  | cons x xs ih =>
    have hx : p x = true := ha x (by simp)
    have hxs : ∀ c ∈ xs, p c = true := fun c hc => ha c (by simp [hc])
    simp only [List.cons_append, List.takeWhile_cons, hx, if_true]
    rw [ih hxs]

theorem loadLines_records : ∀ (hs : List history_entry_t) (cnt : Nat),
    cnt + hs.length ≤ 100 →
    (∀ e ∈ hs, e.command ≠ [] ∧ '\n' ∉ e.command ∧ '|' ∉ e.command ∧
      (formatEntry e).length ≤ 1022) →
    loadLines cnt (hs.map (fun e => formatEntry e ++ ['\n'])) = hs := by
  intro hs
  induction hs with
  | nil =>
    intro cnt _ _
    rfl
  | cons e hs ih =>
    intro cnt hc hg
    obtain ⟨hne, hnl, hbar, hlen⟩ := hg e (List.mem_cons_self _ _)
    have hcnt : cnt < MAX_HISTORY_SIZE := by
      simp only [MAX_HISTORY_SIZE]
      simp only [List.length_cons] at hc
      omega
    have hline : (formatEntry e ++ ['\n']).takeWhile (fun c => c != '\n') =
        formatEntry e := by
      have ha : ∀ c ∈ formatEntry e, (c != '\n') = true := by
        intro c hcm
        simp only [bne_iff_ne, ne_eq, decide_eq_true_eq]
        intro he
        exact formatEntry_no_newline e hnl (he ▸ hcm)
      have := takeWhile_append_stop (fun c => c != '\n') (formatEntry e) '\n' []
        ha (by decide)
      simpa using this
    simp only [List.map_cons, loadLines, if_pos hcnt]
    rw [hline]
    rw [if_neg (formatEntry_ne_nil e)]
    rw [formatEntry_tokens e hne hbar]
    have htk : e.command.take (MAX_HISTORY_LENGTH - 1) = e.command := by
      apply List.take_of_length_le
      have := command_length_le_formatEntry e
      simp only [MAX_HISTORY_LENGTH]
      omega
    simp only [htk, parseCInt_intReprC]
    rw [ih (cnt + 1) (by simp only [List.length_cons] at hc; omega)
      (fun x hx => hg x (List.mem_cons_of_mem _ hx))]

theorem save_flatten_length_le : ∀ (hs : List history_entry_t),
    (∀ e ∈ hs, (formatEntry e).length ≤ 1022) →
    ((hs.map (fun e => formatEntry e ++ ['\n'])).flatten).length ≤
      hs.length * 1023 := by
  intro hs
  induction hs with
  | nil =>
    intro _
    simp
  | cons e hs ih =>
    intro hg
    have h1 : (formatEntry e).length ≤ 1022 := hg e (List.mem_cons_self _ _)
    have h2 := ih (fun x hx => hg x (List.mem_cons_of_mem _ hx))
    simp only [List.map_cons, List.flatten_cons, List.length_append,
      List.length_cons, List.length_nil] at h2 ⊢
    omega

/-- C6 (amended): `save()` followed by a fresh `load()` reproduces the
stored entries exactly — command text, timestamp and exit code — provided
every entry's text is non-empty, contains no newline and no `|`, and its
serialized `timestamp|exit_code|command` record fits the 1024-byte
`fgets` line buffer (at most 1022 characters before the newline).  An
entry whose text contains `|` does not survive: the loader's third
`strtok` token stops at the first `|` inside the text (see the
counterexample). -/
theorem c6_roundtrip_amended (hist : List history_entry_t)
    (hlen : hist.length ≤ 100)
    (hg : ∀ e ∈ hist, e.command ≠ [] ∧ '\n' ∉ e.command ∧ '|' ∉ e.command ∧
      (formatEntry e).length ≤ 1022) :
    load_history (save_history hist) = some hist := by
  have hsave : save_history hist =
      (hist.map (fun e => formatEntry e ++ ['\n'])).flatten := by
    unfold save_history
    rw [if_neg (by simp only [MAX_HISTORY_SIZE]; omega)]
    simp only [List.drop_zero]
  have hsize : ¬ MAX_HISTORY_FILE_SIZE <
      ((hist.map (fun e => formatEntry e ++ ['\n'])).flatten).length := by
    have := save_flatten_length_le hist (fun e he => (hg e he).2.2.2)
    simp only [MAX_HISTORY_FILE_SIZE]
    omega
  unfold load_history
  rw [hsave, if_neg hsize]
  rw [fgetsChunks_records hist
    (fun e he => ⟨formatEntry_no_newline e (hg e he).2.1, (hg e he).2.2.2⟩)]
  rw [loadLines_records hist 0 (by omega) hg]

/-- C6 counterexample: the claim says every entry's command text survives
the save/load round trip.  An entry whose text contains `|` does not:
`a|b` is saved as `0|0|a|b`, and the loader's `strtok` parse returns only
`a` as the command text. -/
theorem c6_bar_text_not_preserved :
    load_history (save_history [⟨"a|b".data, 0, 0⟩]) ≠
      some [⟨"a|b".data, 0, 0⟩] := by
  decide

/-- C6 witness: a two-entry history (with a negative exit code) round
trips exactly. -/
theorem c6_roundtrip_witness :
    load_history (save_history [⟨"ls".data, 5, 0⟩, ⟨"pwd".data, 7, -1⟩]) =
      some [⟨"ls".data, 5, 0⟩, ⟨"pwd".data, 7, -1⟩] :=
  c6_roundtrip_amended [⟨"ls".data, 5, 0⟩, ⟨"pwd".data, 7, -1⟩]
    (by decide) (by decide)

/-- C3 witness: 101 appends onto an empty store; position 1 holds the
second text. -/
theorem c3_capacity_witness :
    get_history_by_number
        (appendAll (("a".data, 0, 0) :: ("b".data, 0, 0) ::
          List.replicate 99 ("c".data, 0, 0)) []) 1 =
      some ("b".data) := by
  have h := c3_history_capacity_and_eviction.2.2 ("a".data, 0, 0) ("b".data, 0, 0)
    (List.replicate 99 ("c".data, 0, 0)) (by simp) (by decide) (by decide)
    (by decide)
  simpa using h

end CustomShell
